import Mathlib

/-!
Verification of the RascalC Monte Carlo covariance integrator driver
(`src/modules/compute_integral.h`).

The development shallowly embeds the driver's control flow and arithmetic:
floating-point quantities become rationals, machine counters become naturals,
accumulator arrays become maps from flat bin index to value, random draws and
external kernel calls become explicit inputs and event traces.  The bodies of
the `Integrals` class (`integrals.h`) are not part of the sources at hand;
where a result depends on them the corresponding operation is modelled from
the specification text and marked as such in its doc comment.
-/

/-- Accumulator arrays (C2, C3, C4 sums, flattened): flat bin index to value. -/
def Arr : Type := Nat → ℚ

/-- The everywhere-zero accumulator array. -/
def zeroArr : Arr := fun _ => 0

/-- Modelled from the spec: `sum_ints(other)` of the `Integrals` class
(`integrals.h`, not among the sources): "adds other's arrays element-wise to
this". -/
def sum_ints (self other : Arr) : Arr := fun i => self i + other i

/-- Modelled from the spec: the mutating part of `frobenius_difference_sum`
of the `Integrals` class (`integrals.h`, not among the sources): "folds
`local` into `this`, then reports the relative Frobenius norm".  Only the
fold touches the accumulator; the reported norms are out-parameters. -/
def frobenius_difference_sum_fold (self locint : Arr) : Arr :=
  fun i => self i + locint i

/-- State threaded through the per-loop critical section of the driver:
the global accumulator `sumint` and the convergence counter. -/
structure CritState where
  sumint : Arr
  convergence_counter : Nat

/-- The critical reduction section of `compute_integral::compute_integral`
(`compute_integral.h` lines 462-509, non-jackknife build): when
`(n_loops+1) % nthread == 0` the driver calls
`sumint.frobenius_difference_sum(&locint, ...)` (which folds `locint` into
`sumint` and returns the three Frobenius deltas) and increments
`convergence_counter` when `frob_C4 < 0.01`; afterwards it always calls
`sumint.sum_ints(&locint)`.  The Frobenius deltas are taken as inputs here:
the driver only branches on them. -/
def critical_section (nthread n_loops : Nat) (frob_C2 frob_C3 frob_C4 : ℚ)
    (st : CritState) (locint : Arr) : CritState :=
  let st1 :=
    if (n_loops + 1) % nthread = 0 then
      { sumint := frobenius_difference_sum_fold st.sumint locint,
        convergence_counter :=
          if frob_C4 < 1/100 then st.convergence_counter + 1
          else st.convergence_counter }
    else st
  { st1 with sumint := sum_ints st1.sumint locint }

/-- The critical reduction section in the JACKKNIFE build
(`compute_integral.h` lines 480-488): the counter increments only when both
`frob_C4 < 0.01` and `frob_C4j < 0.01`. -/
def critical_section_jack (nthread n_loops : Nat)
    (frob_C2 frob_C3 frob_C4 frob_C2j frob_C3j frob_C4j : ℚ)
    (st : CritState) (locint : Arr) : CritState :=
  let st1 :=
    if (n_loops + 1) % nthread = 0 then
      { sumint := frobenius_difference_sum_fold st.sumint locint,
        convergence_counter :=
          if frob_C4 < 1/100 ∧ frob_C4j < 1/100 then st.convergence_counter + 1
          else st.convergence_counter }
    else st
  { st1 with sumint := sum_ints st1.sumint locint }

/-- One reduction event: the loop index `n_loops` at which a thread enters
the critical section, the C4 Frobenius delta it is handed, and the
thread-local accumulator it folds in. -/
structure ReductionEvent where
  n_loops : Nat
  frob_C4 : ℚ
  locint : Arr

/-- A run of per-loop reductions: the critical section executed once per
event, in order. -/
def run_reductions (nthread : Nat) (evs : List ReductionEvent)
    (st : CritState) : CritState :=
  evs.foldl (fun s ev => critical_section nthread ev.n_loops 0 0 ev.frob_C4 s ev.locint) st

/-- The probability inputs of one accepted draw sequence: the raw proposal
ratios returned by `random_cubedraw` (p2) and `random_xidraw` (p3, p4), the
grid-1 particle totals `np`, `np1`, `np2`, and the occupancies of the j, k, l
cells (`sln`, `sln1`, `sln2`, `tln`, `fln`). -/
structure ProbDraw where
  p2_draw : ℚ
  p3_draw : ℚ
  p4_draw : ℚ
  np : ℚ
  np1 : ℚ
  np2 : ℚ
  sln : ℚ
  sln1 : ℚ
  sln2 : ℚ
  tln : ℚ
  fln : ℚ

/-- The sequential probability updates of the driver
(`compute_integral.h` lines 386-392, 417, 440), with `let`-shadowing for
mutation: `p21 = p2/(np1*sln1)` and `p22 = p2/(np2*sln2)` are computed from
the raw `p2`, then `p2 *= 1/(np*sln)`, then `p3 *= p2/tln`, then
`p4 *= p3/fln`.  Returns `(p2, p21, p22, p3, p4)` as passed to the kernels. -/
def prob_updates (d : ProbDraw) : ℚ × ℚ × ℚ × ℚ × ℚ :=
  let p2 := d.p2_draw
  let p21 := p2 / (d.np1 * d.sln1)
  let p22 := p2 / (d.np2 * d.sln2)
  let p2 := p2 * (1 / (d.np * d.sln))
  let p3 := d.p3_draw
  let p3 := p3 * (p2 / d.tln)
  let p4 := d.p4_draw
  let p4 := p4 * (p3 / d.fln)
  (p2, p21, p22, p3, p4)

/-- The triple of attempted-sample counters
(`loc_used_pairs`, `loc_used_triples`, `loc_used_quads`), and after the
loops the totals (`tot_pairs`, `tot_triples`, `tot_quads`). -/
structure UsedCounts where
  pairs : Nat
  triples : Nat
  quads : Nat

/-- Per-primary-cell update of the local attempted-sample counters
(`compute_integral.h` lines 366-370): an empty cell is skipped
(`if(pln==0) continue`), a nonempty one adds `pln*N2`, `pln*N2*N3` and
`pln*N2*N3*N4` regardless of later draw failures. -/
def cell_count_step (N2 N3 N4 : Nat) (c : UsedCounts) (pln : Nat) : UsedCounts :=
  if pln = 0 then c
  else
    { pairs := c.pairs + pln * N2,
      triples := c.triples + pln * N2 * N3,
      quads := c.quads + pln * N2 * N3 * N4 }

/-- The local counters accumulated over one outer loop, given the occupancy
`pln` of each filled grid-1 cell visited (counters are zeroed at loop
start, `compute_integral.h` line 344). -/
def loop_used_counts (N2 N3 N4 : Nat) (plns : List Nat) : UsedCounts :=
  plns.foldl (cell_count_step N2 N3 N4) { pairs := 0, triples := 0, quads := 0 }

/-- The global totals (`compute_integral.h` lines 457-460): after each outer
loop the local counters are added to `tot_pairs`, `tot_triples`,
`tot_quads`. -/
def tot_counts (N2 N3 N4 : Nat) (loop_plns : List (List Nat)) : UsedCounts :=
  loop_plns.foldl
    (fun t plns =>
      let lc := loop_used_counts N2 N3 N4 plns
      { pairs := t.pairs + lc.pairs,
        triples := t.triples + lc.triples,
        quads := t.quads + lc.quads })
    { pairs := 0, triples := 0, quads := 0 }

/-- One outer iteration of the per-thread loop as far as the convergence
counter and the decision to work are concerned (`compute_integral.h` lines
342-351 and the critical section): at loop start the thread checks
`convergence_counter == 10` and, if so, `continue`s — skipping sampling,
accumulation and the critical section entirely; otherwise the loop body runs
and ends in the critical section.  `convergence_counter` is an OpenMP
`reduction(+:...)` variable, hence thread-private during the loop.  The
returned Bool records whether the iteration performed any work. -/
def outer_loop_step (nthread n_loops : Nat) (frob_C2 frob_C3 frob_C4 : ℚ)
    (st : CritState) (locint : Arr) : CritState × Bool :=
  if st.convergence_counter = 10 then (st, false)
  else (critical_section nthread n_loops frob_C2 frob_C3 frob_C4 st locint, true)

/-- A sequence of outer iterations of one thread; returns the final state
and, per iteration, whether that iteration performed work. -/
def run_outer_loops (nthread : Nat) (evs : List ReductionEvent)
    (st : CritState) : CritState × List Bool :=
  match evs with
  | [] => (st, [])
  | ev :: rest =>
    let r := outer_loop_step nthread ev.n_loops 0 0 ev.frob_C4 st ev.locint
    let rr := run_outer_loops nthread rest r.1
    (rr.1, r.2 :: rr.2)

/-- The body of the fourth-particle loop, restricted to the kernel-invocation
trace (`compute_integral.h` lines 429-451): each `n4` draws `pid_l`
(`none` models a failed draw, `x == 1`), and the guard
`if((pid_l==pid_j)||(pid_l==pid_k)) continue;` stands between the draw and
the `locint.fourth` call.  Returns the list of `(pid_j, pid_k, pid_l)`
triples handed to `fourth`. -/
def l_loop (pid_j pid_k : Nat) (ldraw : Nat → Option Nat) :
    Nat → List (Nat × Nat × Nat)
  | 0 => []
  | n + 1 =>
    l_loop pid_j pid_k ldraw n ++
      match ldraw n with
      | none => []
      | some pid_l =>
        if pid_l = pid_j ∨ pid_l = pid_k then []
        else [(pid_j, pid_k, pid_l)]

/-- The body of one third-particle iteration
(`compute_integral.h` lines 404-453): draw `pid_k` (`none` models a failed
draw), skip on `pid_j == pid_k`, otherwise call `locint.third` with
`(pid_j, pid_k)` and run the fourth-particle loop. -/
def k_step (pid_j : Nat) (kdraw : Option Nat) (N4 : Nat)
    (ldraw : Nat → Option Nat) :
    List (Nat × Nat) × List (Nat × Nat × Nat) :=
  match kdraw with
  | none => ([], [])
  | some pid_k =>
    if pid_j = pid_k then ([], [])
    else ([(pid_j, pid_k)], l_loop pid_j pid_k ldraw N4)

/-- The third-particle loop over `N3` iterations: the kernel-invocation
trace of `locint.third` pairs and `locint.fourth` triples.  The primary
cell's particle-ID list `prim_ids` is passed to the kernels by the source
but never inspected by any of the guards; it is carried here as an argument
to state exactly that. -/
def k_loop (prim_ids : List Nat) (pid_j : Nat) (kdraw : Nat → Option Nat)
    (N4 : Nat) (ldraw : Nat → Nat → Option Nat) :
    Nat → List (Nat × Nat) × List (Nat × Nat × Nat)
  | 0 => ([], [])
  | n + 1 =>
    let prev := k_loop prim_ids pid_j kdraw N4 ldraw n
    let cur := k_step pid_j (kdraw n) N4 (ldraw n)
    (prev.1 ++ cur.1, prev.2 ++ cur.2)

/-- A particle: 3D position and weight (`Particle` of the sources, with
floating point modelled by rationals). -/
structure Particle where
  pos : ℚ × ℚ × ℚ
  w : ℚ
deriving DecidableEq

/-- A grid cell (`Cell` of the sources): offset `start` into the particle
array, occupancy `np`, and the two tracer-partition occupancies. -/
structure Cell where
  start : Nat
  np : Nat
  np1 : Nat
  np2 : Nat

/-- Integer cell coordinates (`integer3` of the sources). -/
def Integer3 : Type := Int × Int × Int

/-- The grid interface used by the draw functions: cell array `c`, particle
array `p`, and `test_cell` mapping a 3D coordinate to a 1D cell index or a
negative sentinel when the coordinate is outside the grid. -/
structure Grid where
  c : Nat → Cell
  p : Nat → Particle
  test_cell : Integer3 → Int

/-- Elementwise sum of two 3D vectors. -/
def add3 (a b : ℚ × ℚ × ℚ) : ℚ × ℚ × ℚ := (a.1 + b.1, a.2.1 + b.2.1, a.2.2 + b.2.2)

/-- A particle shifted by the cell separation; the shift is applied only in
the PERIODIC build (`#ifdef PERIODIC ... particle.pos+=shift`). -/
def shift_particle (periodic : Bool) (part : Particle) (shift : ℚ × ℚ × ℚ) : Particle :=
  if periodic then { part with pos := add3 part.pos shift } else part

/-- `compute_integral::draw_particle` (`compute_integral.h` lines 36-53):
returns `none` (C return value 1, all out-parameters untouched) when
`test_cell` is negative or the cell is empty, and otherwise (C return
value 0) the drawn particle ID `floor(u * cell.np) + cell.start` for the
uniform variate `u` of `gsl_rng_uniform`, the (possibly shifted) particle,
and the occupancies `np`, `np1`, `np2` of the cell. -/
def draw_particle (grid : Grid) (id_3D : Integer3) (u : ℚ) (shift : ℚ × ℚ × ℚ)
    (periodic : Bool) : Option (Nat × Particle × Nat × Nat × Nat) :=
  let id_1D := grid.test_cell id_3D
  if id_1D < 0 then none
  else
    let cell := grid.c id_1D.toNat
    if cell.np = 0 then none
    else
      let pid := (⌊u * cell.np⌋).toNat + cell.start
      some (pid, shift_particle periodic (grid.p pid) shift, cell.np, cell.np1, cell.np2)

/-- `compute_integral::draw_particle_without_class`
(`compute_integral.h` lines 56-71): identical to `draw_particle` except
that only the total occupancy `np` is reported. -/
def draw_particle_without_class (grid : Grid) (id_3D : Integer3) (u : ℚ)
    (shift : ℚ × ℚ × ℚ) (periodic : Bool) : Option (Nat × Particle × Nat) :=
  let id_1D := grid.test_cell id_3D
  if id_1D < 0 then none
  else
    let cell := grid.c id_1D.toNat
    if cell.np = 0 then none
    else
      let pid := (⌊u * cell.np⌋).toNat + cell.start
      some (pid, shift_particle periodic (grid.p pid) shift, cell.np)

/-- Functional update of a flat array at one index. -/
def upd (a : Nat → ℚ) (i : Nat) (v : ℚ) : Nat → ℚ := fun n => if n = i then v else a n

/-- The innermost product-weight loop (`compute_integral.h` lines 202-204):
`for bin_b in [0,n)`, add `this_weight * w34[part_bin + bin_b]` into the
table at `part_bin2 + bin_b`. -/
def pw_inner (this_weight : ℚ) (w34 : Nat → ℚ) (part_bin part_bin2 : Nat) :
    Nat → (Nat → ℚ) → (Nat → ℚ)
  | 0, a => a
  | b + 1, a =>
    let a1 := pw_inner this_weight w34 part_bin part_bin2 b a
    upd a1 (part_bin2 + b) (a1 (part_bin2 + b) + this_weight * w34 (part_bin + b))

/-- The middle product-weight loop (`compute_integral.h` lines 200-206):
`for bin_a in [0,B)` with `this_weight = w12[part_bin + bin_a]` and
`part_bin2 = bin_a * nbins` (the source increments `partial_bin2` by
`nbins` per iteration). -/
def pw_mid (w12 w34 : Nat → ℚ) (nbins part_bin : Nat) :
    Nat → (Nat → ℚ) → (Nat → ℚ)
  | 0, a => a
  | bin_a + 1, a =>
    let a1 := pw_mid w12 w34 nbins part_bin bin_a a
    pw_inner (w12 (part_bin + bin_a)) w34 part_bin (bin_a * nbins) nbins a1

/-- The outer product-weight loop (`compute_integral.h` lines 198-208):
`for x in [0,X)` over filled jackknife regions, with
`part_bin = x * nbins` (the source increments `partial_bin` by `nbins`
per region). -/
def pw_outer (w12 w34 : Nat → ℚ) (nbins : Nat) :
    Nat → (Nat → ℚ) → (Nat → ℚ)
  | 0, a => a
  | x + 1, a => pw_mid w12 w34 nbins (x * nbins) nbins (pw_outer w12 w34 nbins x a)

/-- The jackknife-weight interface used by the driver: number of filled
regions, flat `weights` table indexed `region * nbins + bin`, and the
precomputed `product_weights` table. -/
structure JKWeights where
  n_JK_filled : Nat
  weights : Nat → ℚ
  product_weights : Nat → ℚ

/-- The `product_weights12_34` preparation of the JACKKNIFE driver
(`compute_integral.h` lines 186-209): when `((I1==I3)&(I2==I4)) ||
((I1==I4)&(I2==I3))` the stored `JK12->product_weights` is reused; otherwise
a fresh `nbins*nbins` table is obtained from `posix_memalign` — whose
contents are indeterminate and which the source never zeroes — and the `+=`
triple loop over filled regions accumulates on top of whatever the
allocation contained.  `alloc` is the table as the allocator returned it. -/
def product_weights12_34 (I1 I2 I3 I4 : Nat) (JK12 JK34 : JKWeights)
    (nbins : Nat) (alloc : Nat → ℚ) : Nat → ℚ :=
  if (I1 = I3 ∧ I2 = I4) ∨ (I1 = I4 ∧ I2 = I3) then JK12.product_weights
  else pw_outer JK12.weights JK34.weights nbins JK12.n_JK_filled alloc

/-- The claimed value of a fresh product-weight entry: the sum over filled
jackknife regions of `w12[reg, b_a] * w34[reg, b_b]`. -/
def pw_entry_sum (w12 w34 : Nat → ℚ) (nbins X b_a b_b : Nat) : ℚ :=
  ((List.range X).map (fun x => w12 (x * nbins + b_a) * w34 (x * nbins + b_b))).sum

/-- The six cell counters of the driver (`compute_integral.h` lines
251-252): attempted and used j, k, l cells.  They are `uint64` in the
source and only ever incremented, so naturals model them exactly. -/
structure CellCounters where
  cell_attempt2 : Nat
  used_cell2 : Nat
  cell_attempt3 : Nat
  used_cell3 : Nat
  cell_attempt4 : Nat
  used_cell4 : Nat

/-- One fourth-cell attempt (`compute_integral.h` lines 429-438):
`cell_attempt4 += 1` happens first; `used_cell4 += 1` only if the draw
succeeded (`ldraw = some pid_l`) and `pid_l` collides with neither `pid_j`
nor `pid_k`. -/
def n4_step (pid_j pid_k : Nat) (ldraw : Option Nat) (c : CellCounters) :
    CellCounters :=
  let c1 := { c with cell_attempt4 := c.cell_attempt4 + 1 }
  match ldraw with
  | none => c1
  | some pid_l =>
    if pid_l = pid_j ∨ pid_l = pid_k then c1
    else { c1 with used_cell4 := c1.used_cell4 + 1 }

/-- The fourth-cell loop over `N4` attempts. -/
def n4_loop (pid_j pid_k : Nat) (ldraw : Nat → Option Nat) :
    Nat → CellCounters → CellCounters
  | 0, c => c
  | n + 1, c => n4_step pid_j pid_k (ldraw n) (n4_loop pid_j pid_k ldraw n c)

/-- One third-cell attempt (`compute_integral.h` lines 404-415):
`cell_attempt3 += 1` first; on a successful, non-colliding draw
`used_cell3 += 1` and the fourth-cell loop runs. -/
def n3_step (pid_j : Nat) (kdraw : Option Nat) (N4 : Nat)
    (ldraw : Nat → Option Nat) (c : CellCounters) : CellCounters :=
  let c1 := { c with cell_attempt3 := c.cell_attempt3 + 1 }
  match kdraw with
  | none => c1
  | some pid_k =>
    if pid_j = pid_k then c1
    else n4_loop pid_j pid_k ldraw N4 { c1 with used_cell3 := c1.used_cell3 + 1 }

/-- The third-cell loop over `N3` attempts. -/
def n3_loop (pid_j : Nat) (kdraw : Nat → Option Nat) (N4 : Nat)
    (ldraw : Nat → Nat → Option Nat) : Nat → CellCounters → CellCounters
  | 0, c => c
  | n + 1, c => n3_step pid_j (kdraw n) N4 (ldraw n) (n3_loop pid_j kdraw N4 ldraw n c)

/-- The draw outcomes feeding one second-cell attempt: the drawn j particle
ID (`none` models a failed draw) and the k and l draw outcomes of the
nested loops. -/
structure N2Plan where
  jdraw : Option Nat
  kdraw : Nat → Option Nat
  ldraw : Nat → Nat → Option Nat

/-- One second-cell attempt (`compute_integral.h` lines 373-384):
`cell_attempt2 += 1` first; on a successful draw `used_cell2 += 1` and the
inner loops run. -/
def n2_step (plan : N2Plan) (N3 N4 : Nat) (c : CellCounters) : CellCounters :=
  let c1 := { c with cell_attempt2 := c.cell_attempt2 + 1 }
  match plan.jdraw with
  | none => c1
  | some pid_j =>
    n3_loop pid_j plan.kdraw N4 plan.ldraw N3 { c1 with used_cell2 := c1.used_cell2 + 1 }

/-- The second-cell loop over `N2` attempts. -/
def n2_loop (plans : Nat → N2Plan) (N3 N4 : Nat) : Nat → CellCounters → CellCounters
  | 0, c => c
  | n + 1, c => n2_step (plans n) N3 N4 (n2_loop plans N3 N4 n c)

/-- The attempt/used invariant of the cell counters. -/
def counters_ok (c : CellCounters) : Prop :=
  c.used_cell2 ≤ c.cell_attempt2 ∧ c.used_cell3 ≤ c.cell_attempt3 ∧
    c.used_cell4 ≤ c.cell_attempt4

instance (c : CellCounters) : Decidable (counters_ok c) := by
  unfold counters_ok; infer_instance

/-- Per-thread RNG seeding (`compute_integral.h` line 325):
`gsl_rng_set(locrng, steps*(thread+1))`. -/
def thread_seed (steps thread : Nat) : Nat := steps * (thread + 1)

/-- The per-process seed (`compute_integral.h` lines 238-240): `steps` is
drawn from /dev/urandom inside the constructor; it is not a field of the
`Parameters` input.  The urandom draw is the only external input. -/
def steps_from_urandom (urandom_draw : Nat) : Nat := urandom_draw

/-- A single-threaded run of the draw sequence, as a pure function of the
urandom draw: with `nthread = 1` the only thread is thread 0, its RNG is
seeded with `thread_seed steps 0`, and every draw consumes the next value
of the generator stream `g seed`.  `g` abstracts the gsl generator (an
external component); the accumulator inputs are exactly the draw results. -/
def run_draws (grid : Grid) (g : Nat → Nat → ℚ) (urandom_draw : Nat)
    (ids : List Integer3) : List (Option (Nat × Particle × Nat)) :=
  let steps := steps_from_urandom urandom_draw
  let seed := thread_seed steps 0
  (List.range ids.length).map
    (fun n => (ids.get? n).bind
      (fun id3 => draw_particle_without_class grid id3 (g seed n) (0, 0, 0) false))

/-! ## Helper lemmas -/

/-- The counter component of the non-jackknife critical section. -/
theorem critical_section_counter (nthread n_loops : Nat) (f2 f3 f4 : ℚ)
    (st : CritState) (loc : Arr) :
    (critical_section nthread n_loops f2 f3 f4 st loc).convergence_counter
      = if (n_loops + 1) % nthread = 0 ∧ f4 < 1/100
        then st.convergence_counter + 1 else st.convergence_counter := by
  unfold critical_section
  by_cases h : (n_loops + 1) % nthread = 0 <;> by_cases h4 : f4 < 1/100 <;>
    simp [h, h4]

/-- The counter component of the jackknife critical section. -/
theorem critical_section_jack_counter (nthread n_loops : Nat)
    (f2 f3 f4 f2j f3j f4j : ℚ) (st : CritState) (loc : Arr) :
    (critical_section_jack nthread n_loops f2 f3 f4 f2j f3j f4j st loc).convergence_counter
      = if (n_loops + 1) % nthread = 0 ∧ f4 < 1/100 ∧ f4j < 1/100
        then st.convergence_counter + 1 else st.convergence_counter := by
  unfold critical_section_jack
  by_cases h : (n_loops + 1) % nthread = 0 <;> by_cases h4 : f4 < 1/100 <;>
    by_cases h4j : f4j < 1/100 <;> simp [h, h4, h4j]

/-- The accumulator component of the critical section: the local array is
folded in twice on an nthread-th loop (once by `frobenius_difference_sum`,
once by `sum_ints`) and once otherwise. -/
theorem critical_section_sumint (nthread n_loops : Nat) (f2 f3 f4 : ℚ)
    (st : CritState) (loc : Arr) (i : Nat) :
    (critical_section nthread n_loops f2 f3 f4 st loc).sumint i
      = st.sumint i
        + (if (n_loops + 1) % nthread = 0 then 2 else 1) * loc i := by
  unfold critical_section
  by_cases h : (n_loops + 1) % nthread = 0 <;>
    simp [h, sum_ints, frobenius_difference_sum_fold] <;> ring

/-- Preservation of the pairs/triples/quads relations along the per-cell
fold. -/
theorem cell_count_fold_rel (N2 N3 N4 : Nat) (plns : List Nat) (c : UsedCounts)
    (h3 : c.triples = c.pairs * N3) (h4 : c.quads = c.pairs * N3 * N4) :
    (plns.foldl (cell_count_step N2 N3 N4) c).triples
        = (plns.foldl (cell_count_step N2 N3 N4) c).pairs * N3
      ∧ (plns.foldl (cell_count_step N2 N3 N4) c).quads
        = (plns.foldl (cell_count_step N2 N3 N4) c).pairs * N3 * N4 := by
  induction plns generalizing c with
  | nil => exact ⟨h3, h4⟩
  | cons pln rest ih =>
    simp only [List.foldl_cons]
    refine ih _ ?_ ?_ <;> unfold cell_count_step <;> split
    · exact h3
    · simp [h3]; ring
    · exact h4
    · simp [h4]; ring

/-- Preservation of the relations along the per-loop totals fold. -/
theorem tot_counts_fold_rel (N2 N3 N4 : Nat) (loop_plns : List (List Nat))
    (t : UsedCounts) (h3 : t.triples = t.pairs * N3)
    (h4 : t.quads = t.pairs * N3 * N4) :
    (loop_plns.foldl
        (fun t plns =>
          let lc := loop_used_counts N2 N3 N4 plns
          { pairs := t.pairs + lc.pairs,
            triples := t.triples + lc.triples,
            quads := t.quads + lc.quads }) t).triples
      = (loop_plns.foldl
        (fun t plns =>
          let lc := loop_used_counts N2 N3 N4 plns
          { pairs := t.pairs + lc.pairs,
            triples := t.triples + lc.triples,
            quads := t.quads + lc.quads }) t).pairs * N3
    ∧ (loop_plns.foldl
        (fun t plns =>
          let lc := loop_used_counts N2 N3 N4 plns
          { pairs := t.pairs + lc.pairs,
            triples := t.triples + lc.triples,
            quads := t.quads + lc.quads }) t).quads
      = (loop_plns.foldl
        (fun t plns =>
          let lc := loop_used_counts N2 N3 N4 plns
          { pairs := t.pairs + lc.pairs,
            triples := t.triples + lc.triples,
            quads := t.quads + lc.quads }) t).pairs * N3 * N4 := by
  induction loop_plns generalizing t with
  | nil => exact ⟨h3, h4⟩
  | cons plns rest ih =>
    simp only [List.foldl_cons]
    have hl := cell_count_fold_rel N2 N3 N4 plns
      { pairs := 0, triples := 0, quads := 0 } (by simp) (by simp)
    refine ih _ ?_ ?_ <;> simp only [loop_used_counts] at hl ⊢
    · simp [h3, hl.1]; ring
    · simp [h4, hl.2]; ring

/-! ## Claim theorems -/

/-- C10: for every outer loop that runs to completion, the local
attempted-sample counters satisfy `loc_used_triples = loc_used_pairs * N3`
and `loc_used_quads = loc_used_pairs * N3 * N4` exactly (each nonempty
primary cell adds exactly `pln*N2`, `pln*N2*N3`, `pln*N2*N3*N4` regardless
of how many draws fail), and hence after all loops
`tot_triples = tot_pairs * N3` and `tot_quads = tot_pairs * N3 * N4`. -/
theorem used_sample_count_relations (N2 N3 N4 : Nat) (plns : List Nat)
    (loop_plns : List (List Nat)) :
    (loop_used_counts N2 N3 N4 plns).triples
        = (loop_used_counts N2 N3 N4 plns).pairs * N3
    ∧ (loop_used_counts N2 N3 N4 plns).quads
        = (loop_used_counts N2 N3 N4 plns).pairs * N3 * N4
    ∧ (tot_counts N2 N3 N4 loop_plns).triples
        = (tot_counts N2 N3 N4 loop_plns).pairs * N3
    ∧ (tot_counts N2 N3 N4 loop_plns).quads
        = (tot_counts N2 N3 N4 loop_plns).pairs * N3 * N4 := by
  have hl := cell_count_fold_rel N2 N3 N4 plns
    { pairs := 0, triples := 0, quads := 0 } (by simp) (by simp)
  have ht := tot_counts_fold_rel N2 N3 N4 loop_plns
    { pairs := 0, triples := 0, quads := 0 } (by simp) (by simp)
  exact ⟨hl.1, hl.2, ht.1, ht.2⟩

/-- C5: for every accepted draw sequence, the probabilities passed to the
kernels satisfy: `p2` passed to `second` equals the `random_cubedraw`
proposal ratio divided by `grid1.np * sln`; in the angular variant `p21`
and `p22` equal the raw proposal ratio divided by `grid1.np1 * sln1` and
`grid1.np2 * sln2` respectively, both computed before the `np*sln`
division; `p3` passed to `third` equals the `random_xidraw` proposal ratio
times the final `p2` divided by `tln`; and `p4` passed to `fourth` equals
the `random_xidraw` proposal ratio times the final `p3` divided by
`fln`. -/
theorem probability_composition (d : ProbDraw) :
    (prob_updates d).1 = d.p2_draw / (d.np * d.sln)
    ∧ (prob_updates d).2.1 = d.p2_draw / (d.np1 * d.sln1)
    ∧ (prob_updates d).2.2.1 = d.p2_draw / (d.np2 * d.sln2)
    ∧ (prob_updates d).2.2.2.1 = d.p3_draw * (prob_updates d).1 / d.tln
    ∧ (prob_updates d).2.2.2.2 = d.p4_draw * (prob_updates d).2.2.2.1 / d.fln := by
  refine ⟨?_, rfl, rfl, ?_, ?_⟩
  · show d.p2_draw * (1 / (d.np * d.sln)) = d.p2_draw / (d.np * d.sln)
    rw [mul_one_div]
  · show d.p3_draw * (d.p2_draw * (1 / (d.np * d.sln)) / d.tln)
        = d.p3_draw * (d.p2_draw * (1 / (d.np * d.sln))) / d.tln
    ring
  · show d.p4_draw * (d.p3_draw * (d.p2_draw * (1 / (d.np * d.sln)) / d.tln) / d.fln)
        = d.p4_draw * (d.p3_draw * (d.p2_draw * (1 / (d.np * d.sln)) / d.tln)) / d.fln
    ring

/-- C3: for every outer loop index, the Frobenius deltas are consulted and
the convergence counter considered only when `(n_loops+1)` is a multiple of
`nthread`; on such a loop the counter grows by exactly one iff every C4
Frobenius delta is below 0.01 (`frob_C4` alone in the non-jackknife builds,
`frob_C4` and `frob_C4j` in the jackknife build), and the C2 and C3 deltas
never affect the counter. -/
theorem convergence_counter_increment (nthread n_loops : Nat)
    (f2 f3 f4 g2 g3 f2j f3j f4j g2j g3j : ℚ) (st : CritState) (loc : Arr) :
    ((critical_section nthread n_loops f2 f3 f4 st loc).convergence_counter
        = if (n_loops + 1) % nthread = 0 ∧ f4 < 1/100
          then st.convergence_counter + 1 else st.convergence_counter)
    ∧ (critical_section nthread n_loops f2 f3 f4 st loc).convergence_counter
        = (critical_section nthread n_loops g2 g3 f4 st loc).convergence_counter
    ∧ ((critical_section_jack nthread n_loops f2 f3 f4 f2j f3j f4j st loc).convergence_counter
        = if (n_loops + 1) % nthread = 0 ∧ f4 < 1/100 ∧ f4j < 1/100
          then st.convergence_counter + 1 else st.convergence_counter)
    ∧ (critical_section_jack nthread n_loops f2 f3 f4 f2j f3j f4j st loc).convergence_counter
        = (critical_section_jack nthread n_loops g2 g3 f4 g2j g3j f4j st loc).convergence_counter := by
  refine ⟨critical_section_counter nthread n_loops f2 f3 f4 st loc, ?_,
    critical_section_jack_counter nthread n_loops f2 f3 f4 f2j f3j f4j st loc, ?_⟩
  · rw [critical_section_counter, critical_section_counter]
  · rw [critical_section_jack_counter, critical_section_jack_counter]

/-- C1 (counterexample): the claim that every thread-local contribution is
folded into `sumint` exactly once fails.  With `nthread = 1` a single loop
with index 0 satisfies `(0+1) % 1 == 0`, so its local accumulator — here the
constant array 1 — is folded once by `frobenius_difference_sum` and a second
time by `sum_ints`; the global accumulator ends at 2, while the element-wise
sum of the contributions taken once each is 1. -/
theorem reduction_exactly_once_counterexample :
    (run_reductions 1 [{ n_loops := 0, frob_C4 := 0, locint := fun _ => 1 }]
        { sumint := zeroArr, convergence_counter := 0 }).sumint 0 = 2
    ∧ ([(fun _ => (1:ℚ)) 0].sum = (1:ℚ))
    ∧ (2:ℚ) ≠ 1 := by
  refine ⟨?_, by norm_num, by norm_num⟩
  show sum_ints (frobenius_difference_sum_fold zeroArr (fun _ => 1)) (fun _ => 1) 0 = 2
  norm_num [sum_ints, frobenius_difference_sum_fold, zeroArr]

/-- C1 (amended): after every per-loop reduction the global accumulator
equals, element-wise, its initial value plus the sum of all thread-local
contributions folded in so far, where a contribution reduced at loop index
`n_loops` with `(n_loops+1) % nthread == 0` is folded twice (once by
`frobenius_difference_sum`, once by `sum_ints`) and every other contribution
once; nothing is dropped. -/
theorem reduction_fold_multiplicity (nthread : Nat) (evs : List ReductionEvent)
    (st : CritState) (i : Nat) :
    (run_reductions nthread evs st).sumint i
      = st.sumint i
        + (evs.map (fun ev =>
            (if (ev.n_loops + 1) % nthread = 0 then (2:ℚ) else 1) * ev.locint i)).sum := by
  induction evs generalizing st with
  | nil => simp [run_reductions]
  | cons ev rest ih =>
    simp only [run_reductions, List.foldl_cons, List.map_cons, List.sum_cons] at ih ⊢
    rw [ih, critical_section_sumint]
    ring

/-- The convergence counter never decreases across one critical section. -/
theorem critical_section_counter_mono (nthread n_loops : Nat) (f2 f3 f4 : ℚ)
    (st : CritState) (loc : Arr) :
    st.convergence_counter
      ≤ (critical_section nthread n_loops f2 f3 f4 st loc).convergence_counter := by
  rw [critical_section_counter]
  split <;> omega

/-- The convergence counter never decreases across one outer iteration. -/
theorem outer_loop_step_counter_mono (nthread n_loops : Nat) (f2 f3 f4 : ℚ)
    (st : CritState) (loc : Arr) :
    st.convergence_counter
      ≤ (outer_loop_step nthread n_loops f2 f3 f4 st loc).1.convergence_counter := by
  unfold outer_loop_step
  split
  · exact le_refl _
  · exact critical_section_counter_mono nthread n_loops f2 f3 f4 st loc

/-- C4: throughout any run of one thread, `convergence_counter` is monotone
non-decreasing (it is never reset or decremented), and once the thread
observes its counter equal to 10 at the start of an outer loop, that thread
performs no sampling, accumulation or reduction work in any remaining outer
loop: its state is unchanged and every remaining iteration reports no
work. -/
theorem convergence_counter_monotone_stop (nthread : Nat)
    (evs : List ReductionEvent) (st : CritState) :
    st.convergence_counter
        ≤ (run_outer_loops nthread evs st).1.convergence_counter
    ∧ (st.convergence_counter = 10 →
        (run_outer_loops nthread evs st).1 = st
        ∧ ∀ b ∈ (run_outer_loops nthread evs st).2, b = false) := by
  induction evs generalizing st with
  | nil => exact ⟨le_refl _, fun _ => ⟨rfl, by simp [run_outer_loops]⟩⟩
  | cons ev rest ih =>
    constructor
    · calc st.convergence_counter
          ≤ (outer_loop_step nthread ev.n_loops 0 0 ev.frob_C4 st ev.locint).1.convergence_counter :=
            outer_loop_step_counter_mono nthread ev.n_loops 0 0 ev.frob_C4 st ev.locint
        _ ≤ (run_outer_loops nthread (ev :: rest) st).1.convergence_counter :=
            (ih _).1
    · intro h10
      have hstep : outer_loop_step nthread ev.n_loops 0 0 ev.frob_C4 st ev.locint = (st, false) := by
        unfold outer_loop_step
        rw [if_pos h10]
      have hrest := (ih st).2 h10
      constructor
      · show (run_outer_loops nthread rest
            (outer_loop_step nthread ev.n_loops 0 0 ev.frob_C4 st ev.locint).1).1 = st
        rw [hstep]
        exact hrest.1
      · intro b hb
        simp only [run_outer_loops, List.mem_cons] at hb
        rw [hstep] at hb
        rcases hb with hb | hb
        · exact hb
        · exact hrest.2 b hb

/-- C4 witness: a thread whose counter already reads 10 does nothing in a
subsequent loop. -/
theorem convergence_counter_monotone_stop_witness :
    (run_outer_loops 1 [{ n_loops := 0, frob_C4 := 0, locint := zeroArr }]
        { sumint := zeroArr, convergence_counter := 10 }).1
      = { sumint := zeroArr, convergence_counter := 10 }
    ∧ ∀ b ∈ (run_outer_loops 1 [{ n_loops := 0, frob_C4 := 0, locint := zeroArr }]
        { sumint := zeroArr, convergence_counter := 10 }).2, b = false :=
  (convergence_counter_monotone_stop 1
    [{ n_loops := 0, frob_C4 := 0, locint := zeroArr }]
    { sumint := zeroArr, convergence_counter := 10 }).2 rfl

/-- Every triple in the fourth-kernel trace of one k-iteration carries the
given `pid_j`, `pid_k` and a non-colliding `pid_l`. -/
theorem l_loop_mem (pid_j pid_k : Nat) (ldraw : Nat → Option Nat) (n : Nat) :
    ∀ c ∈ l_loop pid_j pid_k ldraw n,
      c.1 = pid_j ∧ c.2.1 = pid_k ∧ c.2.2 ≠ pid_j ∧ c.2.2 ≠ pid_k := by
  induction n with
  | zero => intro c hc; simp [l_loop] at hc
  | succ m ih =>
    intro c hc
    simp only [l_loop, List.mem_append] at hc
    rcases hc with hc | hc
    · exact ih c hc
    · revert hc
      match ldraw m with
      | none => intro hc; simp at hc
      | some pid_l =>
        by_cases h : pid_l = pid_j ∨ pid_l = pid_k
        · intro hc; simp [h] at hc
        · intro hc
          simp [h] at hc
          push_neg at h
          simp [hc, h.1, h.2]

/-- C6: the driver never invokes the `third` kernel with `pid_k` equal to
`pid_j`, and never invokes the `fourth` kernel unless `pid_j`, `pid_k`,
`pid_l` are pairwise distinct — a k-draw colliding with j, or an l-draw
colliding with j or k, is skipped before the kernel call — and the guards
impose no distinctness constraint between the primary particles and the
drawn j, k, l: the invocation trace is the same for any primary ID list. -/
theorem collision_guards (prim_ids prim_ids2 : List Nat) (pid_j : Nat)
    (kdraw : Nat → Option Nat) (N3 N4 : Nat) (ldraw : Nat → Nat → Option Nat) :
    (∀ c ∈ (k_loop prim_ids pid_j kdraw N4 ldraw N3).1, c.2 ≠ c.1)
    ∧ (∀ c ∈ (k_loop prim_ids pid_j kdraw N4 ldraw N3).2,
        c.1 ≠ c.2.1 ∧ c.1 ≠ c.2.2 ∧ c.2.1 ≠ c.2.2)
    ∧ k_loop prim_ids pid_j kdraw N4 ldraw N3
        = k_loop prim_ids2 pid_j kdraw N4 ldraw N3 := by
  refine ⟨?_, ?_, ?_⟩
  · induction N3 with
    | zero => intro c hc; simp [k_loop] at hc
    | succ m ih =>
      intro c hc
      simp only [k_loop, List.mem_append] at hc
      rcases hc with hc | hc
      · exact ih c hc
      · revert hc
        unfold k_step
        match kdraw m with
        | none => intro hc; simp at hc
        | some pid_k =>
          by_cases h : pid_j = pid_k
          · intro hc; simp [h] at hc
          · intro hc
            simp [h] at hc
            subst hc
            exact fun hk => h hk.symm
  · induction N3 with
    | zero => intro c hc; simp [k_loop] at hc
    | succ m ih =>
      intro c hc
      simp only [k_loop, List.mem_append] at hc
      rcases hc with hc | hc
      · exact ih c hc
      · revert hc
        unfold k_step
        match kdraw m with
        | none => intro hc; simp at hc
        | some pid_k =>
          by_cases h : pid_j = pid_k
          · intro hc; simp [h] at hc
          · intro hc
            simp [h] at hc
            have hm := l_loop_mem pid_j pid_k (ldraw m) N4 c hc
            refine ⟨?_, ?_, ?_⟩
            · rw [hm.1, hm.2.1]; exact h
            · rw [hm.1]; exact fun he => hm.2.2.1 he.symm
            · rw [hm.2.1]; exact fun he => hm.2.2.2 he.symm
  · induction N3 with
    | zero => rfl
    | succ m ih => simp only [k_loop, ih]

/-- The drawn index lies in the cell's particle range: for `0 ≤ u < 1` and
`np ≠ 0`, `floor (u * np) + start` is in `[start, start + np)`. -/
theorem floor_draw_bounds (u : ℚ) (np start : Nat) (h0 : 0 ≤ u) (h1 : u < 1)
    (hnp : np ≠ 0) :
    start ≤ (⌊u * (np:ℚ)⌋).toNat + start
    ∧ (⌊u * (np:ℚ)⌋).toNat + start < start + np := by
  have hnp' : (0:ℚ) < np := by
    exact_mod_cast Nat.pos_of_ne_zero hnp
  have hge : (0:ℤ) ≤ ⌊u * (np:ℚ)⌋ := by
    apply Int.floor_nonneg.mpr
    exact mul_nonneg h0 (le_of_lt hnp')
  have hlt : ⌊u * (np:ℚ)⌋ < (np:ℤ) := by
    apply Int.floor_lt.mpr
    push_cast
    calc u * (np:ℚ) < 1 * np := by
          exact mul_lt_mul_of_pos_right h1 hnp'
      _ = np := one_mul _
  constructor
  · omega
  · omega

/-- C7: `draw_particle` (and `draw_particle_without_class`) returns the
error value — leaving particle, ID and occupancy outputs untouched, and
never touching any accumulator — iff `test_cell` returns the negative
sentinel or the addressed cell has `np == 0`; otherwise it returns success
with `pid` in `[cell.start, cell.start + cell.np)`, the particle
`grid.p[pid]` shifted by the cell separation under periodic geometry, and
the cell occupancy counts. -/
theorem draw_particle_spec (grid : Grid) (id_3D : Integer3) (u : ℚ)
    (shift : ℚ × ℚ × ℚ) (periodic : Bool) (h0 : 0 ≤ u) (h1 : u < 1) :
    (draw_particle grid id_3D u shift periodic = none ↔
      grid.test_cell id_3D < 0 ∨ (grid.c (grid.test_cell id_3D).toNat).np = 0)
    ∧ (∀ pid part n n1 n2,
        draw_particle grid id_3D u shift periodic = some (pid, part, n, n1, n2) →
          (grid.c (grid.test_cell id_3D).toNat).start ≤ pid
          ∧ pid < (grid.c (grid.test_cell id_3D).toNat).start
              + (grid.c (grid.test_cell id_3D).toNat).np
          ∧ part = shift_particle periodic (grid.p pid) shift
          ∧ n = (grid.c (grid.test_cell id_3D).toNat).np
          ∧ n1 = (grid.c (grid.test_cell id_3D).toNat).np1
          ∧ n2 = (grid.c (grid.test_cell id_3D).toNat).np2)
    ∧ (draw_particle_without_class grid id_3D u shift periodic = none ↔
      grid.test_cell id_3D < 0 ∨ (grid.c (grid.test_cell id_3D).toNat).np = 0)
    ∧ (∀ pid part n,
        draw_particle_without_class grid id_3D u shift periodic = some (pid, part, n) →
          (grid.c (grid.test_cell id_3D).toNat).start ≤ pid
          ∧ pid < (grid.c (grid.test_cell id_3D).toNat).start
              + (grid.c (grid.test_cell id_3D).toNat).np
          ∧ part = shift_particle periodic (grid.p pid) shift
          ∧ n = (grid.c (grid.test_cell id_3D).toNat).np) := by
  by_cases hneg : grid.test_cell id_3D < 0
  · refine ⟨?_, ?_, ?_, ?_⟩
    · simp [draw_particle, hneg]
    · intro pid part n n1 n2 h
      simp [draw_particle, hneg] at h
    · simp [draw_particle_without_class, hneg]
    · intro pid part n h
      simp [draw_particle_without_class, hneg] at h
  · by_cases hnp : (grid.c (grid.test_cell id_3D).toNat).np = 0
    · refine ⟨?_, ?_, ?_, ?_⟩
      · simp [draw_particle, hneg, hnp]
      · intro pid part n n1 n2 h
        simp [draw_particle, hneg, hnp] at h
      · simp [draw_particle_without_class, hneg, hnp]
      · intro pid part n h
        simp [draw_particle_without_class, hneg, hnp] at h
    · have hb := floor_draw_bounds u (grid.c (grid.test_cell id_3D).toNat).np
        (grid.c (grid.test_cell id_3D).toNat).start h0 h1 hnp
      refine ⟨?_, ?_, ?_, ?_⟩
      · simp [draw_particle, hneg, hnp]
      · intro pid part n n1 n2 h
        simp only [draw_particle, if_neg hneg, if_neg hnp, Option.some.injEq,
          Prod.mk.injEq] at h
        obtain ⟨hpid, hpart, hn, hn1, hn2⟩ := h
        subst hpid
        exact ⟨hb.1, hb.2, hpart.symm, hn.symm, hn1.symm, hn2.symm⟩
      · simp [draw_particle_without_class, hneg, hnp]
      · intro pid part n h
        simp only [draw_particle_without_class, if_neg hneg, if_neg hnp,
          Option.some.injEq, Prod.mk.injEq] at h
        obtain ⟨hpid, hpart, hn⟩ := h
        subst hpid
        exact ⟨hb.1, hb.2, hpart.symm, hn.symm⟩

/-- C7 witness: the success case evaluated on a concrete two-particle
cell. -/
theorem draw_particle_spec_witness :
    draw_particle
        { c := fun _ => { start := 5, np := 2, np1 := 1, np2 := 1 },
          p := fun i => { pos := ((i:ℚ), 0, 0), w := 1 },
          test_cell := fun _ => 0 }
        (0, 0, 0) (1/2) (0, 0, 0) false = none ↔
      ({ c := fun _ => { start := 5, np := 2, np1 := 1, np2 := 1 },
         p := fun i => { pos := ((i:ℚ), 0, 0), w := 1 },
         test_cell := fun _ => 0 } : Grid).test_cell (0, 0, 0) < 0
      ∨ (({ c := fun _ => { start := 5, np := 2, np1 := 1, np2 := 1 },
            p := fun i => { pos := ((i:ℚ), 0, 0), w := 1 },
            test_cell := fun _ => 0 } : Grid).c
          ((({ c := fun _ => { start := 5, np := 2, np1 := 1, np2 := 1 },
               p := fun i => { pos := ((i:ℚ), 0, 0), w := 1 },
               test_cell := fun _ => 0 } : Grid).test_cell (0, 0, 0)).toNat)).np = 0 :=
  (draw_particle_spec
    { c := fun _ => { start := 5, np := 2, np1 := 1, np2 := 1 },
      p := fun i => { pos := ((i:ℚ), 0, 0), w := 1 },
      test_cell := fun _ => 0 }
    (0, 0, 0) (1/2) (0, 0, 0) false (by norm_num) (by norm_num)).1

/-- C8: with `nthread = 1` and an identical seed, two runs of the driver
produce identical outputs: thread 0's generator is seeded deterministically
as `steps * (thread + 1) = steps`, and the whole draw sequence — hence every
accumulator input — is a pure function of the urandom draw that sets
`steps` inside the constructor (the `Parameters` input carries no seed). -/
theorem determinism_given_seed (grid : Grid) (g : Nat → Nat → ℚ)
    (u1 u2 : Nat) (ids : List Integer3) (h : u1 = u2) :
    run_draws grid g u1 ids = run_draws grid g u2 ids
    ∧ thread_seed (steps_from_urandom u1) 0 = steps_from_urandom u1 := by
  subst h
  refine ⟨rfl, ?_⟩
  unfold thread_seed
  exact Nat.mul_one _

/-- C8 witness: two runs from the same urandom draw coincide. -/
theorem determinism_given_seed_witness :
    run_draws
        { c := fun _ => { start := 0, np := 1, np1 := 1, np2 := 0 },
          p := fun i => { pos := ((i:ℚ), 0, 0), w := 1 },
          test_cell := fun _ => 0 }
        (fun _ _ => 0) 5 [(0, 0, 0)]
      = run_draws
        { c := fun _ => { start := 0, np := 1, np1 := 1, np2 := 0 },
          p := fun i => { pos := ((i:ℚ), 0, 0), w := 1 },
          test_cell := fun _ => 0 }
        (fun _ _ => 0) 5 [(0, 0, 0)]
    ∧ thread_seed (steps_from_urandom 5) 0 = steps_from_urandom 5 :=
  determinism_given_seed
    { c := fun _ => { start := 0, np := 1, np1 := 1, np2 := 0 },
      p := fun i => { pos := ((i:ℚ), 0, 0), w := 1 },
      test_cell := fun _ => 0 }
    (fun _ _ => 0) 5 5 [(0, 0, 0)] rfl

/-- Field behavior of one fourth-cell attempt: the attempt counter advances
by exactly one, the used counter by at most one, and no other counter
moves. -/
theorem n4_step_fields (pj pk : Nat) (ld : Option Nat) (c : CellCounters) :
    (n4_step pj pk ld c).cell_attempt2 = c.cell_attempt2
    ∧ (n4_step pj pk ld c).used_cell2 = c.used_cell2
    ∧ (n4_step pj pk ld c).cell_attempt3 = c.cell_attempt3
    ∧ (n4_step pj pk ld c).used_cell3 = c.used_cell3
    ∧ (n4_step pj pk ld c).cell_attempt4 = c.cell_attempt4 + 1
    ∧ c.used_cell4 ≤ (n4_step pj pk ld c).used_cell4
    ∧ (n4_step pj pk ld c).used_cell4 ≤ c.used_cell4 + 1 := by
  unfold n4_step
  match ld with
  | none => simp
  | some pl =>
    by_cases h : pl = pj ∨ pl = pk
    · simp [h]
    · simp [h]

/-- Field behavior of the fourth-cell loop. -/
theorem n4_loop_fields (pj pk : Nat) (ld : Nat → Option Nat) (n : Nat)
    (c : CellCounters) :
    (n4_loop pj pk ld n c).cell_attempt2 = c.cell_attempt2
    ∧ (n4_loop pj pk ld n c).used_cell2 = c.used_cell2
    ∧ (n4_loop pj pk ld n c).cell_attempt3 = c.cell_attempt3
    ∧ (n4_loop pj pk ld n c).used_cell3 = c.used_cell3
    ∧ c.cell_attempt4 ≤ (n4_loop pj pk ld n c).cell_attempt4
    ∧ c.used_cell4 ≤ (n4_loop pj pk ld n c).used_cell4
    ∧ ((n4_loop pj pk ld n c).used_cell4 - c.used_cell4
        ≤ (n4_loop pj pk ld n c).cell_attempt4 - c.cell_attempt4) := by
  induction n with
  | zero => simp [n4_loop]
  | succ m ih =>
    have hs := n4_step_fields pj pk (ld m) (n4_loop pj pk ld m c)
    simp only [n4_loop]
    obtain ⟨s1, s2, s3, s4, s5, s6, s7⟩ := hs
    obtain ⟨i1, i2, i3, i4, i5, i6, i7⟩ := ih
    refine ⟨by rw [s1, i1], by rw [s2, i2], by rw [s3, i3], by rw [s4, i4],
      ?_, ?_, ?_⟩ <;> omega

/-- Field behavior of one third-cell attempt. -/
theorem n3_step_fields (pj : Nat) (kd : Option Nat) (N4 : Nat)
    (ld : Nat → Option Nat) (c : CellCounters) :
    (n3_step pj kd N4 ld c).cell_attempt2 = c.cell_attempt2
    ∧ (n3_step pj kd N4 ld c).used_cell2 = c.used_cell2
    ∧ (n3_step pj kd N4 ld c).cell_attempt3 = c.cell_attempt3 + 1
    ∧ c.used_cell3 ≤ (n3_step pj kd N4 ld c).used_cell3
    ∧ (n3_step pj kd N4 ld c).used_cell3 ≤ c.used_cell3 + 1
    ∧ c.cell_attempt4 ≤ (n3_step pj kd N4 ld c).cell_attempt4
    ∧ c.used_cell4 ≤ (n3_step pj kd N4 ld c).used_cell4
    ∧ ((n3_step pj kd N4 ld c).used_cell4 - c.used_cell4
        ≤ (n3_step pj kd N4 ld c).cell_attempt4 - c.cell_attempt4) := by
  unfold n3_step
  match kd with
  | none => simp
  | some pk =>
    by_cases h : pj = pk
    · simp [h]
    · simp only [if_neg h]
      have hl := n4_loop_fields pj pk ld N4
        { c with cell_attempt3 := c.cell_attempt3 + 1, used_cell3 := c.used_cell3 + 1 }
      obtain ⟨l1, l2, l3, l4, l5, l6, l7⟩ := hl
      simp only at l1 l2 l3 l4 l5 l6 l7
      refine ⟨l1, l2, l3, ?_, ?_, ?_, ?_, ?_⟩ <;> omega

/-- Field behavior of the third-cell loop. -/
theorem n3_loop_fields (pj : Nat) (kd : Nat → Option Nat) (N4 : Nat)
    (ld : Nat → Nat → Option Nat) (n : Nat) (c : CellCounters) :
    (n3_loop pj kd N4 ld n c).cell_attempt2 = c.cell_attempt2
    ∧ (n3_loop pj kd N4 ld n c).used_cell2 = c.used_cell2
    ∧ c.cell_attempt3 ≤ (n3_loop pj kd N4 ld n c).cell_attempt3
    ∧ c.used_cell3 ≤ (n3_loop pj kd N4 ld n c).used_cell3
    ∧ ((n3_loop pj kd N4 ld n c).used_cell3 - c.used_cell3
        ≤ (n3_loop pj kd N4 ld n c).cell_attempt3 - c.cell_attempt3)
    ∧ c.cell_attempt4 ≤ (n3_loop pj kd N4 ld n c).cell_attempt4
    ∧ c.used_cell4 ≤ (n3_loop pj kd N4 ld n c).used_cell4
    ∧ ((n3_loop pj kd N4 ld n c).used_cell4 - c.used_cell4
        ≤ (n3_loop pj kd N4 ld n c).cell_attempt4 - c.cell_attempt4) := by
  induction n with
  | zero => simp [n3_loop]
  | succ m ih =>
    have hs := n3_step_fields pj (kd m) N4 (ld m) (n3_loop pj kd N4 ld m c)
    simp only [n3_loop]
    obtain ⟨s1, s2, s3, s4, s5, s6, s7, s8⟩ := hs
    obtain ⟨i1, i2, i3, i4, i5, i6, i7, i8⟩ := ih
    refine ⟨by rw [s1, i1], by rw [s2, i2], ?_, ?_, ?_, ?_, ?_, ?_⟩ <;> omega

/-- Field behavior of one second-cell attempt. -/
theorem n2_step_fields (plan : N2Plan) (N3 N4 : Nat) (c : CellCounters) :
    (n2_step plan N3 N4 c).cell_attempt2 = c.cell_attempt2 + 1
    ∧ c.used_cell2 ≤ (n2_step plan N3 N4 c).used_cell2
    ∧ (n2_step plan N3 N4 c).used_cell2 ≤ c.used_cell2 + 1
    ∧ c.cell_attempt3 ≤ (n2_step plan N3 N4 c).cell_attempt3
    ∧ c.used_cell3 ≤ (n2_step plan N3 N4 c).used_cell3
    ∧ ((n2_step plan N3 N4 c).used_cell3 - c.used_cell3
        ≤ (n2_step plan N3 N4 c).cell_attempt3 - c.cell_attempt3)
    ∧ c.cell_attempt4 ≤ (n2_step plan N3 N4 c).cell_attempt4
    ∧ c.used_cell4 ≤ (n2_step plan N3 N4 c).used_cell4
    ∧ ((n2_step plan N3 N4 c).used_cell4 - c.used_cell4
        ≤ (n2_step plan N3 N4 c).cell_attempt4 - c.cell_attempt4) := by
  cases hj : plan.jdraw with
  | none =>
    simp only [n2_step, hj]
    exact ⟨trivial, by omega⟩
  | some pj =>
    have hl := n3_loop_fields pj plan.kdraw N4 plan.ldraw N3
      { cell_attempt2 := c.cell_attempt2 + 1, used_cell2 := c.used_cell2 + 1,
        cell_attempt3 := c.cell_attempt3, used_cell3 := c.used_cell3,
        cell_attempt4 := c.cell_attempt4, used_cell4 := c.used_cell4 }
    obtain ⟨l1, l2, l3, l4, l5, l6, l7, l8⟩ := hl
    simp only at l1 l2 l3 l4 l5 l6 l7 l8
    simp only [n2_step, hj]
    refine ⟨?_, ?_, ?_, ?_, ?_, ?_, ?_, ?_, ?_⟩ <;> omega

/-- Field behavior of the second-cell loop. -/
theorem n2_loop_fields (plans : Nat → N2Plan) (N3 N4 n : Nat)
    (c : CellCounters) :
    c.cell_attempt2 ≤ (n2_loop plans N3 N4 n c).cell_attempt2
    ∧ c.used_cell2 ≤ (n2_loop plans N3 N4 n c).used_cell2
    ∧ ((n2_loop plans N3 N4 n c).used_cell2 - c.used_cell2
        ≤ (n2_loop plans N3 N4 n c).cell_attempt2 - c.cell_attempt2)
    ∧ c.cell_attempt3 ≤ (n2_loop plans N3 N4 n c).cell_attempt3
    ∧ c.used_cell3 ≤ (n2_loop plans N3 N4 n c).used_cell3
    ∧ ((n2_loop plans N3 N4 n c).used_cell3 - c.used_cell3
        ≤ (n2_loop plans N3 N4 n c).cell_attempt3 - c.cell_attempt3)
    ∧ c.cell_attempt4 ≤ (n2_loop plans N3 N4 n c).cell_attempt4
    ∧ c.used_cell4 ≤ (n2_loop plans N3 N4 n c).used_cell4
    ∧ ((n2_loop plans N3 N4 n c).used_cell4 - c.used_cell4
        ≤ (n2_loop plans N3 N4 n c).cell_attempt4 - c.cell_attempt4) := by
  induction n with
  | zero => simp [n2_loop]
  | succ m ih =>
    have hs := n2_step_fields (plans m) N3 N4 (n2_loop plans N3 N4 m c)
    simp only [n2_loop]
    obtain ⟨s1, s2, s3, s4, s5, s6, s7, s8, s9⟩ := hs
    obtain ⟨i1, i2, i3, i4, i5, i6, i7, i8, i9⟩ := ih
    refine ⟨?_, ?_, ?_, ?_, ?_, ?_, ?_, ?_, ?_⟩ <;> omega

/-- C9: at every point during any run, `cell_attempt2 ≥ used_cell2 ≥ 0`,
`cell_attempt3 ≥ used_cell3 ≥ 0`, `cell_attempt4 ≥ used_cell4 ≥ 0`
(nonnegativity is inherent: the counters are naturals, as `uint64` values
that are only ever incremented): each attempt counter is incremented exactly
once per draw attempt, before the corresponding used counter can be
incremented, and the used counter grows only (and by exactly one) on an
accepted draw — so the invariant is preserved by every atomic step, every
nested loop, and the whole second-cell loop. -/
theorem cell_counter_invariant (plans : Nat → N2Plan) (N2 N3 N4 : Nat)
    (c : CellCounters) (h : counters_ok c) :
    counters_ok (n2_loop plans N3 N4 N2 c)
    ∧ (∀ plan : N2Plan, (n2_step plan N3 N4 c).cell_attempt2 = c.cell_attempt2 + 1
        ∧ c.used_cell2 ≤ (n2_step plan N3 N4 c).used_cell2
        ∧ (n2_step plan N3 N4 c).used_cell2 ≤ c.used_cell2 + 1
        ∧ counters_ok (n2_step plan N3 N4 c))
    ∧ (∀ pj kd ld, counters_ok (n3_step pj kd N4 ld c))
    ∧ (∀ pj pk ld, counters_ok (n4_step pj pk ld c)) := by
  obtain ⟨h2, h3, h4⟩ := h
  refine ⟨?_, ?_, ?_, ?_⟩
  · obtain ⟨l1, l2, l3, l4, l5, l6, l7, l8, l9⟩ := n2_loop_fields plans N3 N4 N2 c
    exact ⟨by omega, by omega, by omega⟩
  · intro plan
    obtain ⟨s1, s2, s3, s4, s5, s6, s7, s8, s9⟩ := n2_step_fields plan N3 N4 c
    exact ⟨s1, s2, s3, by omega, by omega, by omega⟩
  · intro pj kd ld
    obtain ⟨s1, s2, s3, s4, s5, s6, s7, s8⟩ := n3_step_fields pj kd N4 ld c
    exact ⟨by omega, by omega, by omega⟩
  · intro pj pk ld
    obtain ⟨s1, s2, s3, s4, s5, s6, s7⟩ := n4_step_fields pj pk ld c
    exact ⟨by omega, by omega, by omega⟩

/-- C9 witness: the invariant holds after a concrete run from zeroed
counters. -/
theorem cell_counter_invariant_witness :
    counters_ok (n2_loop
      (fun _ => { jdraw := some 1, kdraw := fun _ => some 2,
                  ldraw := fun _ _ => some 3 }) 1 1 1
      { cell_attempt2 := 0, used_cell2 := 0, cell_attempt3 := 0,
        used_cell3 := 0, cell_attempt4 := 0, used_cell4 := 0 }) :=
  (cell_counter_invariant
    (fun _ => { jdraw := some 1, kdraw := fun _ => some 2,
                ldraw := fun _ _ => some 3 }) 1 1 1
    { cell_attempt2 := 0, used_cell2 := 0, cell_attempt3 := 0,
      used_cell3 := 0, cell_attempt4 := 0, used_cell4 := 0 }
    (by exact ⟨le_refl 0, le_refl 0, le_refl 0⟩)).1

/-- The inner product-weight loop leaves indices outside
`[part_bin2, part_bin2 + n)` untouched. -/
theorem pw_inner_outside (w : ℚ) (w34 : Nat → ℚ) (pb pb2 n i : Nat)
    (a : Nat → ℚ) (h : i < pb2 ∨ pb2 + n ≤ i) :
    pw_inner w w34 pb pb2 n a i = a i := by
  induction n generalizing a with
  | zero => rfl
  | succ b ih =>
    have hne : i ≠ pb2 + b := by omega
    show upd (pw_inner w w34 pb pb2 b a) (pb2 + b) _ i = a i
    rw [upd, if_neg hne]
    exact ih a (by omega)

/-- The inner product-weight loop adds `w * w34 (pb + b)` at index
`pb2 + b` for every `b < n`. -/
theorem pw_inner_at (w : ℚ) (w34 : Nat → ℚ) (pb pb2 n b : Nat)
    (a : Nat → ℚ) (hb : b < n) :
    pw_inner w w34 pb pb2 n a (pb2 + b) = a (pb2 + b) + w * w34 (pb + b) := by
  induction n generalizing a with
  | zero => omega
  | succ m ih =>
    by_cases heq : b = m
    · subst heq
      show upd (pw_inner w w34 pb pb2 b a) (pb2 + b) _ (pb2 + b) = _
      rw [upd, if_pos rfl]
      rw [pw_inner_outside w w34 pb pb2 b (pb2 + b) a (by omega)]
    · have hlt : b < m := by omega
      have hne : pb2 + b ≠ pb2 + m := by omega
      show upd (pw_inner w w34 pb pb2 m a) (pb2 + m) _ (pb2 + b) = _
      rw [upd, if_neg hne]
      exact ih a hlt

/-- The middle product-weight loop leaves indices at or above `B * nbins`
untouched. -/
theorem pw_mid_outside (w12 w34 : Nat → ℚ) (nbins pb B i : Nat)
    (a : Nat → ℚ) (h : B * nbins ≤ i) :
    pw_mid w12 w34 nbins pb B a i = a i := by
  induction B generalizing a with
  | zero => rfl
  | succ m ih =>
    show pw_inner (w12 (pb + m)) w34 pb (m * nbins) nbins
        (pw_mid w12 w34 nbins pb m a) i = a i
    rw [pw_inner_outside _ _ _ _ _ _ _ (by right; calc
      m * nbins + nbins = (m + 1) * nbins := by ring
      _ ≤ i := h)]
    exact ih a (le_trans (Nat.mul_le_mul_right nbins (Nat.le_succ m)) h)

/-- The middle product-weight loop adds `w12 (pb + b_a) * w34 (pb + b_b)`
at flat index `b_a * nbins + b_b` for `b_a < B`, `b_b < nbins`. -/
theorem pw_mid_at (w12 w34 : Nat → ℚ) (nbins pb B b_a b_b : Nat)
    (a : Nat → ℚ) (ha : b_a < B) (hb : b_b < nbins) :
    pw_mid w12 w34 nbins pb B a (b_a * nbins + b_b)
      = a (b_a * nbins + b_b) + w12 (pb + b_a) * w34 (pb + b_b) := by
  induction B generalizing a with
  | zero => omega
  | succ m ih =>
    by_cases heq : b_a = m
    · subst heq
      show pw_inner (w12 (pb + b_a)) w34 pb (b_a * nbins) nbins
          (pw_mid w12 w34 nbins pb b_a a) (b_a * nbins + b_b) = _
      rw [pw_inner_at _ _ _ _ _ _ _ hb]
      rw [pw_mid_outside w12 w34 nbins pb b_a (b_a * nbins + b_b) a (by omega)]
    · have hlt : b_a < m := by omega
      show pw_inner (w12 (pb + m)) w34 pb (m * nbins) nbins
          (pw_mid w12 w34 nbins pb m a) (b_a * nbins + b_b) = _
      rw [pw_inner_outside _ _ _ _ _ _ _ (by left; calc
        b_a * nbins + b_b < b_a * nbins + nbins := by omega
        _ = (b_a + 1) * nbins := by ring
        _ ≤ m * nbins := Nat.mul_le_mul_right nbins (by omega))]
      exact ih a hlt

/-- The outer product-weight loop accumulates, at flat index
`b_a * nbins + b_b`, the sum over regions `x < X` of
`w12 (x*nbins + b_a) * w34 (x*nbins + b_b)`. -/
theorem pw_outer_at (w12 w34 : Nat → ℚ) (nbins X b_a b_b : Nat)
    (a : Nat → ℚ) (ha : b_a < nbins) (hb : b_b < nbins) :
    pw_outer w12 w34 nbins X a (b_a * nbins + b_b)
      = a (b_a * nbins + b_b) + pw_entry_sum w12 w34 nbins X b_a b_b := by
  induction X generalizing a with
  | zero => simp [pw_outer, pw_entry_sum]
  | succ x ih =>
    show pw_mid w12 w34 nbins (x * nbins) nbins
        (pw_outer w12 w34 nbins x a) (b_a * nbins + b_b) = _
    rw [pw_mid_at w12 w34 nbins (x * nbins) nbins b_a b_b _ ha hb]
    rw [ih a]
    simp only [pw_entry_sum, List.range_succ, List.map_append, List.sum_append,
      List.map_cons, List.map_nil, List.sum_cons, List.sum_nil]
    ring

/-- The fresh product-weight table entry after the triple loop is the
allocator-supplied content plus the region sum — the `+=` filling
accumulates on top of whatever `posix_memalign` returned — while the reuse
branch returns `JK12`'s stored table. -/
theorem product_weights_12_34_fresh (I1 I2 I3 I4 : Nat) (JK12 JK34 : JKWeights)
    (nbins b_a b_b : Nat) (alloc : Nat → ℚ) (ha : b_a < nbins) (hb : b_b < nbins) :
    (¬((I1 = I3 ∧ I2 = I4) ∨ (I1 = I4 ∧ I2 = I3)) →
      product_weights12_34 I1 I2 I3 I4 JK12 JK34 nbins alloc (b_a * nbins + b_b)
        = alloc (b_a * nbins + b_b)
          + pw_entry_sum JK12.weights JK34.weights nbins JK12.n_JK_filled b_a b_b)
    ∧ (((I1 = I3 ∧ I2 = I4) ∨ (I1 = I4 ∧ I2 = I3)) →
      product_weights12_34 I1 I2 I3 I4 JK12 JK34 nbins alloc
        = JK12.product_weights) := by
  constructor
  · intro h
    unfold product_weights12_34
    rw [if_neg h]
    exact pw_outer_at JK12.weights JK34.weights nbins JK12.n_JK_filled b_a b_b alloc ha hb
  · intro h
    unfold product_weights12_34
    rw [if_pos h]

/-- C2 (code bug): the claim — and the spec's "fill it as
Σ_regions w12[reg,b_a]·w34[reg,b_b]" — requires the fresh table to start at
zero, but the source obtains it from `posix_memalign` (indeterminate
contents, `compute_integral.h` lines 192-193) and fills it with `+=` (line
203) without ever zeroing it, so each entry is the leftover allocation
content plus the region sum.  Evaluated at a failing input:
`(I1,I2,I3,I4) = (1,1,1,2)` (reuse condition false), `nbins = 1`, one
filled region with unit weights, and an allocation whose entry 0 holds 1:
the program yields 1 + 1 = 2 while the claimed region sum is 1. -/
theorem product_weights_12_34_uninitialized :
    product_weights12_34 1 1 1 2
        { n_JK_filled := 1, weights := fun _ => 1, product_weights := fun _ => 0 }
        { n_JK_filled := 1, weights := fun _ => 1, product_weights := fun _ => 0 }
        1 (fun _ => 1) (0 * 1 + 0) = 2
    ∧ pw_entry_sum (fun _ => (1:ℚ)) (fun _ => (1:ℚ)) 1 1 0 0 = 1
    ∧ (2:ℚ) ≠ 1 := by
  refine ⟨?_, ?_, by norm_num⟩
  · show pw_outer (fun _ => (1:ℚ)) (fun _ => (1:ℚ)) 1 1 (fun _ => 1) (0 * 1 + 0) = 2
    norm_num [pw_outer, pw_mid, pw_inner, upd]
  · norm_num [pw_entry_sum]

/-- C6 witness: a concrete draw sequence whose single third-kernel call has
distinct particle IDs. -/
theorem collision_guards_witness : ((0:Nat), (1:Nat)).2 ≠ ((0:Nat), (1:Nat)).1 :=
  (collision_guards [] [] 0 (fun _ => some 1) 1 1 (fun _ _ => some 2)).1
    (0, 1) (by decide)
